import Mathlib

/-!
A formal model of the RepoSensei relevance-ranking core.

This file gives a shallow embedding of the repository-analysis core
(`reposensei/utils.py` and `reposensei/signals.py`) and proves properties
of the embedded functions.

Modelling conventions:
* A snapshot of the repository tree is a list of regular files in the order
  `Path.rglob` would yield them, each carrying its relative path (as a list
  of components), the text `read_text` would return (`none` models a raised
  exception), and its `st_size`.  Directories are not modelled: every scanner
  in the source filters with `is_file()` before using an entry.
* `Path.resolve()` is modelled by a function field `res` of the snapshot
  (the identity when no symlinks are present).  The `except` fallback
  `rp = it` of `add_unique` is unreachable because `res` is total.
* Python strings are Lean `String`s; `len`, slicing and concatenation act on
  characters in both.  Python's `str.lower` is modelled with `Char.toLower`,
  which agrees on ASCII (all constants compared against are ASCII).
* Python `re` scanning is modelled by explicit character-list scanners that
  follow each regex; `\s` is modelled by the ASCII whitespace characters.
-/

set_option maxRecDepth 20000

namespace RepoSensei

/-- A path relative to the repository root, as its list of components. -/
abbrev RPath := List String

/-- One regular file of the scanned snapshot. -/
structure FSFile where
  path : RPath
  content : Option String
  size : Nat
deriving DecidableEq

/-- An immutable snapshot of the repository tree: the regular files in
traversal (`rglob`) order, plus the `Path.resolve` map. -/
structure FS where
  files : List FSFile
  res : RPath → RPath

/- ## Character and string helpers (Python semantics over `List Char`) -/

/-- ASCII `\s` of Python's `re` module. -/
def isPySpace (c : Char) : Bool :=
  c == ' ' || c == '\t' || c == '\n' || c == '\r' || c == '\x0b' || c == '\x0c'

/-- Does `t` start with the pattern `p`? -/
def beginsWith : List Char → List Char → Bool
  | [], _ => true
  | _ :: _, [] => false
  | p :: ps, t :: ts => p == t && beginsWith ps ts

/-- Python's `pat in s` substring test, over character lists. -/
def hasSub (pat : List Char) : List Char → Bool
  | [] => beginsWith pat []
  | t :: ts => beginsWith pat (t :: ts) || hasSub pat ts

/-- Python's `sub in s`. -/
def strHasSub (sub s : String) : Bool := hasSub sub.data s.data

/-- Python's `s.endswith(suffix)`. -/
def strEnds (s suffix : String) : Bool := beginsWith suffix.data.reverse s.data.reverse

/-- Python's `str.lower` (faithful on ASCII). -/
def lowerStr (s : String) : String := ⟨s.data.map Char.toLower⟩

/-- Python's `s[:n]` character slice. -/
def strTake (s : String) (n : Nat) : String := ⟨s.data.take n⟩

/-- Python's `s.split(sep)` for a one-character separator. -/
def splitChar (sep : Char) : List Char → List (List Char)
  | [] => [[]]
  | c :: cs =>
    if c == sep then [] :: splitChar sep cs
    else
      match splitChar sep cs with
      | [] => [[c]]
      | g :: gs => (c :: g) :: gs

/-- A boolean comparison as a `Prop` relation. -/
def boolRel (le : α → α → Bool) : α → α → Prop := fun a b => le a b = true

instance (le : α → α → Bool) : DecidableRel (boolRel le) :=
  fun a b => instDecidableEqBool (le a b) true

/-- Python's `list.sort`/`sorted` are stable; a stable sort is extensionally
unique, so the (stable) insertion sort models them faithfully. -/
def stableSortBy (le : α → α → Bool) (l : List α) : List α :=
  l.insertionSort (boolRel le)

/-- Python string `<=`: lexicographic comparison by code point. -/
def lexLe : List Char → List Char → Bool
  | [], _ => true
  | _ :: _, [] => false
  | a :: as, b :: bs => if a == b then lexLe as bs else decide (a < b)

/-- String form of `lexLe`. -/
def strLe (a b : String) : Bool := lexLe a.data b.data

/-- The last component of a relative path (`Path.name`). -/
def lastName (p : RPath) : String := p.getLastD ""

/-- Index of the last `'.'` in a character list (`str.rfind('.')`). -/
def rfindDot (cs : List Char) : Option Nat :=
  match cs.reverse.findIdx? (· == '.') with
  | none => none
  | some j => some (cs.length - 1 - j)

/-- `pathlib.PurePath.suffix` of a file name: the part from the last dot on,
empty unless `0 < i < len(name) - 1` for the dot position `i`. -/
def pathSuffix (name : String) : String :=
  match rfindDot name.data with
  | none => ""
  | some i =>
    if 0 < i && i + 1 < name.data.length then ⟨name.data.drop i⟩ else ""

/-- `pathlib.PurePath.stem` of a file name. -/
def pathStem (name : String) : String :=
  match rfindDot name.data with
  | none => name
  | some i =>
    if 0 < i && i + 1 < name.data.length then ⟨name.data.take i⟩ else name

/-- `str(rel)` / `rel.as_posix()` of a relative path on POSIX. -/
def relString (p : RPath) : String := String.intercalate "/" p

/-- Python's `s.split(sep)[-1]`. -/
def lastSeg (s : String) (sep : Char) : String := ⟨(splitChar sep s.data).getLastD []⟩

/-- Python's `s.split(sep)[0]`. -/
def firstSeg (s : String) (sep : Char) : String := ⟨(splitChar sep s.data).headD []⟩

/- ## Constant tables of `reposensei/utils.py` -/

def IGNORE_DIRS : List String :=
  [".git", "node_modules", "dist", "build", "target", "vendor",
   ".venv", "venv", "__pycache__", ".pytest_cache", ".mypy_cache",
   ".next", ".turbo", ".parcel-cache", ".cache"]

def PRIORITY_FILES : List String :=
  ["README.md", "README.rst", "README.txt",
   "pyproject.toml", "requirements.txt", "Pipfile", "poetry.lock", "setup.py",
   "package.json", "pnpm-lock.yaml", "yarn.lock", "package-lock.json",
   "go.mod", "go.sum",
   "pom.xml", "build.gradle", "build.gradle.kts",
   "Dockerfile", "docker-compose.yml", "Makefile",
   "terraform.tf", "main.tf",
   "serverless.yml", "template.yaml"]

def CODE_DIR_HINTS : List String :=
  ["src", "app", "apps", "api", "server", "backend", "frontend", "cmd", "pkg", "internal", "lib"]

def DEPRIORITIZE_DIRS : List String :=
  ["docs", "doc", "documentation", "site", "website", "examples", "example", "demo", "demos", "public"]

def ENTRY_FILENAMES : List String :=
  ["main.py", "app.py", "server.py", "wsgi.py", "asgi.py",
   "index.js", "index.ts", "server.js", "server.ts", "app.js", "app.ts",
   "main.go", "main.java"]

/- ## Tree scanner (`iter_repo_files`, `build_tree`) -/

/-- `iter_repo_files`: every regular file none of whose path components is in
`IGNORE_DIRS` (the test covers every component, the file name included). -/
def iterRepoFiles (fs : FS) : List FSFile :=
  fs.files.filter (fun f => !(f.path.any (fun part => IGNORE_DIRS.contains part)))

/-- The relative paths yielded by `iter_repo_files`, in traversal order. -/
def iterPaths (fs : FS) : List RPath := (iterRepoFiles fs).map (·.path)

/-- `p.exists() and p.is_file()` for a path relative to the root. -/
def lookupFile (fs : FS) (p : RPath) : Option FSFile :=
  fs.files.find? (fun f => f.path == p)

def fileAt (fs : FS) (p : RPath) : Bool := (lookupFile fs p).isSome

def truncatedMarker : String := "... (truncated)"

/-- The scanned relative path strings sorted by `str(path)`; sorting the full
path strings under a fixed root orders them exactly like the relative ones. -/
def sortedRelStrings (fs : FS) : List String :=
  stableSortBy strLe ((iterPaths fs).map relString)

/-- The line-accumulation loop of `build_tree`: append each path, and once the
running count reaches the cap append the marker and stop. -/
def buildTreeGo (maxEntries : Nat) : List String → Nat → List String
  | [], _ => []
  | r :: rest, count =>
    if maxEntries ≤ count + 1 then [r, truncatedMarker]
    else r :: buildTreeGo maxEntries rest (count + 1)

/-- `build_tree`. -/
def buildTree (fs : FS) (maxEntries : Nat) : String :=
  String.intercalate "\n" (buildTreeGo maxEntries (sortedRelStrings fs) 0)

/- ## Import-graph builder (`_collect_import_centrality`) -/

/-- `_safe_read_text`: an unreadable file yields `""`, otherwise the text is
clipped to `max_chars` characters. -/
def safeReadText (fs : FS) (p : RPath) (maxChars : Nat) : String :=
  match lookupFile fs p with
  | none => ""
  | some f =>
    match f.content with
    | none => ""
    | some t => strTake t maxChars

/-- `_build_basename_index` looked up at one stem: all scanned files whose
lowercased stem equals `base`, in traversal order. -/
def basenameIdx (fs : FS) (base : String) : List RPath :=
  ((iterRepoFiles fs).filter (fun f => lowerStr (pathStem (lastName f.path)) == base)).map (·.path)

/-- Character class `[a-zA-Z0-9_.]` of `PY_IMPORT_RE`. -/
def pyTokChar (c : Char) : Bool := c.isAlphanum || c == '_' || c == '.'

/-- The `from\s+([a-zA-Z0-9_.]+)\s+import` alternative of `PY_IMPORT_RE`,
applied to a line with its leading whitespace already stripped. -/
def pyFromToken (l : List Char) : Option String :=
  if beginsWith "from".data l then
    match l.drop 4 with
    | [] => none
    | c :: _ =>
      if isPySpace c then
        let r2 := (l.drop 4).dropWhile isPySpace
        let tok := r2.takeWhile pyTokChar
        if tok.isEmpty then none
        else
          match r2.drop tok.length with
          | [] => none
          | c2 :: r3 =>
            if isPySpace c2 && beginsWith "import".data (r3.dropWhile isPySpace) then
              some ⟨tok⟩
            else none
      else none
  else none

/-- The `import\s+([a-zA-Z0-9_.]+)` alternative of `PY_IMPORT_RE`. -/
def pyPlainToken (l : List Char) : Option String :=
  if beginsWith "import".data l then
    match l.drop 6 with
    | [] => none
    | c :: _ =>
      if isPySpace c then
        let tok := ((l.drop 6).dropWhile isPySpace).takeWhile pyTokChar
        if tok.isEmpty then none else some ⟨tok⟩
      else none
  else none

/-- One line of `PY_IMPORT_RE` (`^` with `re.M` anchors at line starts; the
`from` alternative is tried before the `import` one). -/
def pyLineToken (line : List Char) : Option String :=
  let l := line.dropWhile isPySpace
  (pyFromToken l).orElse (fun _ => pyPlainToken l)

/-- All module tokens `PY_IMPORT_RE.finditer` extracts from a text. -/
def pyImportTokens (text : String) : List String :=
  (splitChar '\n' text.data).filterMap pyLineToken

/-- The `from\s+['"](.+?)['"]\s*;?\s*$` tail of `JS_IMPORT_RE`, searched for
left to right (approximating the lazy `.*?` without later backtracking). -/
def jsFindFrom : List Char → Option String
  | [] => none
  | c0 :: t =>
    if beginsWith "from".data (c0 :: t) then
      match (c0 :: t).drop 4 with
      | [] => none
      | c :: r =>
        if isPySpace c then
          match (c :: r).dropWhile isPySpace with
          | [] => none
          | q :: r3 =>
            if q == '"' || q == '\'' then
              let path := r3.takeWhile (fun ch => !(ch == '"' || ch == '\'' || ch == '\n'))
              if path.isEmpty then jsFindFrom t
              else
                match r3.drop path.length with
                | [] => jsFindFrom t
                | c2 :: r4 =>
                  if c2 == '"' || c2 == '\'' then
                    let r5 := r4.dropWhile isPySpace
                    let r6 := match r5 with
                      | ';' :: rr => rr.dropWhile isPySpace
                      | _ => r5
                    if r6.isEmpty then some ⟨path⟩ else jsFindFrom t
                  else jsFindFrom t
            else jsFindFrom t
        else jsFindFrom t
    else jsFindFrom t

/-- One line of `JS_IMPORT_RE`: `^\s*import\s+.*?from\s+['"](.+?)['"]\s*;?\s*$`. -/
def jsImportLine (line : List Char) : Option String :=
  let l := line.dropWhile isPySpace
  if beginsWith "import".data l then
    match l.drop 6 with
    | [] => none
    | c :: r => if isPySpace c then jsFindFrom (c :: r) else none
  else none

/-- All paths `JS_IMPORT_RE.finditer` extracts from a text. -/
def jsImportPaths (text : String) : List String :=
  (splitChar '\n' text.data).filterMap jsImportLine

/-- `JS_REQUIRE_RE.finditer`: `require\(\s*['"](.+?)['"]\s*\)` anywhere. -/
def jsRequireGo : Nat → List Char → List String
  | 0, _ => []
  | _ + 1, [] => []
  | fuel + 1, c0 :: t =>
    if beginsWith "require(".data (c0 :: t) then
      match ((c0 :: t).drop 8).dropWhile isPySpace with
      | [] => []
      | q :: r2 =>
        if q == '"' || q == '\'' then
          let path := r2.takeWhile (fun ch => !(ch == '"' || ch == '\'' || ch == '\n'))
          if path.isEmpty then jsRequireGo fuel t
          else
            match r2.drop path.length with
            | [] => jsRequireGo fuel t
            | c2 :: r3 =>
              if c2 == '"' || c2 == '\'' then
                match r3.dropWhile isPySpace with
                | ')' :: r5 => String.mk path :: jsRequireGo fuel r5
                | _ => jsRequireGo fuel t
              else jsRequireGo fuel t
        else jsRequireGo fuel t
    else jsRequireGo fuel t

def jsRequirePaths (text : String) : List String :=
  jsRequireGo text.data.length text.data

/-- `GO_IMPORT_RE` tried at one line start:
`^\s*import\s*(?:\(\s*)?["']([^"']+)["']` (here `\s` may span lines). -/
def goParseAt (l : List Char) : Option String :=
  let r := l.dropWhile isPySpace
  if beginsWith "import".data r then
    let r2 := (r.drop 6).dropWhile isPySpace
    let r3 := match r2 with
      | '(' :: rr => rr.dropWhile isPySpace
      | _ => r2
    match r3 with
    | [] => none
    | q :: r4 =>
      if q == '"' || q == '\'' then
        let path := r4.takeWhile (fun ch => !(ch == '"' || ch == '\''))
        if path.isEmpty then none
        else
          match r4.drop path.length with
          | [] => none
          | _ :: _ => some ⟨path⟩
      else none
  else none

/-- The suffixes of a text that sit just after a newline. -/
def lineStartsGo : List Char → List (List Char)
  | [] => []
  | c :: t => if c == '\n' then t :: lineStartsGo t else lineStartsGo t

/-- All paths `GO_IMPORT_RE.finditer` extracts (duplicates are harmless:
the caller pours them into a set). -/
def goImportPaths (text : String) : List String :=
  (text.data :: lineStartsGo text.data).filterMap goParseAt

/-- `mod.split(".")[-1].lower()` for a Python module token. -/
def pyBase (mod : String) : String := lowerStr (lastSeg mod '.')

/-- `path.split("/")[-1].split(".")[0].lower()`; `Path(path).name` of the
local-import branch is modelled by the same last-`/`-segment computation. -/
def moduleBase (path : String) : String := lowerStr (firstSeg (lastSeg path '/') '.')

/-- Adding one resolved target to the `refs` set (insertion-ordered). -/
def addRef (refs : List RPath) (tgt : RPath) : List RPath :=
  if refs.contains tgt then refs else refs ++ [tgt]

/-- Crediting every index entry of one base name (`for tgt in basename_idx.get(base, [])`). -/
def addBaseRefs (fs : FS) (refs : List RPath) (base : String) : List RPath :=
  (basenameIdx fs base).foldl addRef refs

/-- The `refs` set one scanned source file accumulates, per its suffix. -/
def refsOf (fs : FS) (src : RPath) (text : String) : List RPath :=
  let suf := lowerStr (pathSuffix (lastName src))
  if suf == ".py" then
    (pyImportTokens text).foldl (fun refs mod => addBaseRefs fs refs (pyBase mod)) []
  else if suf == ".js" || suf == ".ts" || suf == ".tsx" || suf == ".jsx" then
    let r1 := (jsImportPaths text).foldl (fun refs p => addBaseRefs fs refs (moduleBase p)) []
    (jsRequirePaths text).foldl (fun refs p => addBaseRefs fs refs (moduleBase p)) r1
  else if suf == ".go" then
    (goImportPaths text).foldl (fun refs p => addBaseRefs fs refs (moduleBase p)) []
  else []

/- ## Counters (`collections.Counter`, insertion-ordered) -/

/-- An insertion-ordered counter. -/
abbrev Cnt (α : Type) := List (α × Nat)

def cntGet [DecidableEq α] (c : Cnt α) (k : α) : Nat :=
  match c.find? (fun e => decide (e.1 = k)) with
  | some e => e.2
  | none => 0

/-- `counter[k] += n` on a Python dict/Counter: update the entry in place
(keeping its position) when the key is present, else append it at the end. -/
def cntAdd [DecidableEq α] : Cnt α → α → Nat → Cnt α
  | [], k, n => [(k, n)]
  | e :: rest, k, n => if e.1 = k then (e.1, e.2 + n) :: rest else e :: cntAdd rest k n

/-- `Counter.most_common(n)`: stable sort by count descending, first `n`. -/
def cntMostCommon [DecidableEq α] (c : Cnt α) (n : Nat) : Cnt α :=
  (stableSortBy (fun a b => decide (b.2 ≤ a.2)) c).take n

/-- `Counter.most_common()` with no bound. -/
def cntMostCommonAll [DecidableEq α] (c : Cnt α) : Cnt α :=
  stableSortBy (fun a b => decide (b.2 ≤ a.2)) c

/- ## Centrality collection -/

def codeSuffixes : List String := [".py", ".js", ".ts", ".tsx", ".jsx", ".go"]

/-- `p.stat().st_size if p.exists() else 0`. -/
def statSize (fs : FS) (p : RPath) : Nat :=
  match lookupFile fs p with
  | some f => f.size
  | none => 0

/-- The candidate source files: code suffixes only, stably sorted by size
descending, first 250. -/
def scanCandidates (fs : FS) : List RPath :=
  (stableSortBy (fun a b => decide (statSize fs b ≤ statSize fs a))
    ((iterPaths fs).filter
      (fun p => codeSuffixes.contains (lowerStr (pathSuffix (lastName p)))))).take 250

/-- The `refs` set a candidate contributes: empty when its clipped text is
empty (the `if not text: continue` guard), else `refsOf` on that text. -/
def effRefs (fs : FS) (src : RPath) : List RPath :=
  let text := safeReadText fs src 80000
  if text == "" then [] else refsOf fs src text

/-- The counter-update loop of `_collect_import_centrality`. -/
def collectGo (fs : FS) : List RPath → Cnt RPath × Cnt RPath → Cnt RPath × Cnt RPath
  | [], acc => acc
  | src :: rest, (inb, outb) =>
    let refs := effRefs fs src
    if refs.isEmpty then collectGo fs rest (inb, outb)
    else
      collectGo fs rest
        (refs.foldl (fun i tgt => if tgt ≠ src then cntAdd i tgt 1 else i) inb,
         cntAdd outb src refs.length)

/-- `_collect_import_centrality` (inbound, outbound). -/
def collectImportCentrality (fs : FS) : Cnt RPath × Cnt RPath :=
  collectGo fs (scanCandidates fs) ([], [])

/- ## Importance scorer (`pick_important_files`) -/

def readmeNames : List String := ["README.md", "README.rst", "README.txt"]

/-- Tier 1: near-root priority files in traversal order, then the
`# ensure README first if present` loop, which inserts `root/rn` at the
front only when that exact path is not already in the list. -/
def pinnedTier (fs : FS) : List RPath :=
  let base := (iterPaths fs).filter
    (fun p => decide (p.length ≤ 2) && PRIORITY_FILES.contains (lastName p))
  readmeNames.foldl
    (fun acc rn => if fileAt fs [rn] && !(acc.contains [rn]) then [rn] :: acc else acc)
    base

/-- Tier 2: likely entry files anywhere. -/
def entryTier (fs : FS) : List RPath :=
  (iterPaths fs).filter (fun p => ENTRY_FILENAMES.contains (lowerStr (lastName p)))

/-- Tier 3: the 80 most-imported files that still exist as regular files. -/
def centralTier (fs : FS) (inb : Cnt RPath) : List RPath :=
  ((cntMostCommon inb 80).filter (fun e => fileAt fs e.1)).map (·.1)

def routerEndings : List String :=
  ["routes.py", "router.py", "handlers.go", "controller.ts", "controller.js", "urls.py"]

def routeWords : List String :=
  ["route", "router", "controller", "handler", "endpoint", "service"]

def configWords : List String :=
  ["config", "settings", "infra", "deploy", ".github"]

/-- The tier-4 scoring of one file; `none` models both the `OSError` skip and
the outright exclusion of files above the 350000-byte ceiling, and the
final `if score > 0` filter. -/
def heuristicStep (fs : FS) (outb : Cnt RPath) (p : RPath) : Option (Int × RPath) :=
  let relStr := lowerStr (relString p)
  let name := lastName p
  let s0 : Int := if PRIORITY_FILES.contains name then 120 else 0
  let s1 := s0 + (if p.any (fun part => CODE_DIR_HINTS.contains part) then 40 else 0)
  let s2 := s1 - (if p.any (fun part => DEPRIORITIZE_DIRS.contains part) then 35 else 0)
  let lowname := lowerStr name
  let s3 := s2 + (if ENTRY_FILENAMES.contains lowname then 90 else 0)
  let s4 := s3 + (if routerEndings.any (fun x => strEnds lowname x) then 45 else 0)
  let s5 := s4 + (if routeWords.any (fun x => strHasSub x relStr) then 20 else 0)
  let s6 := s5 + (if configWords.any (fun x => strHasSub x relStr) then 15 else 0)
  match lookupFile fs p with
  | none => none
  | some f =>
    if 350000 < f.size then none
    else
      let s7 := s6 - Int.ofNat (f.size / 12000)
      let s8 := s7 + (if 8 ≤ cntGet outb p then 25 else 0)
      if 0 < s8 then some (s8, p) else none

/-- Tier 4 before sorting: scored candidates in traversal order. -/
def heuristicCandidates (fs : FS) (outb : Cnt RPath) : List (Int × RPath) :=
  (iterPaths fs).filterMap (heuristicStep fs outb)

/-- `candidates.sort(key=score, reverse=True)`: stable, descending. -/
def sortCandidates (cs : List (Int × RPath)) : List (Int × RPath) :=
  stableSortBy (fun a b => decide (b.1 ≤ a.1)) cs

/-- The loop body of `add_unique`: `seen` starts as the resolved paths of
`out`, each new item is appended only if its resolution is unseen. -/
def addUniqueGo (res : RPath → RPath) : List RPath → List RPath → List RPath → List RPath
  | out, _, [] => out
  | out, seen, it :: rest =>
    let rp := res it
    if seen.contains rp then addUniqueGo res out seen rest
    else addUniqueGo res (out ++ [it]) (rp :: seen) rest

/-- `add_unique(out, items)`. -/
def addUnique (res : RPath → RPath) (out items : List RPath) : List RPath :=
  addUniqueGo res out (out.map res) items

/-- The merged selection before the final `[:max_files]` truncation. -/
def pickFull (fs : FS) : List RPath :=
  let pinned := pinnedTier fs
  let entry := entryTier fs
  let collected := collectImportCentrality fs
  let central := centralTier fs collected.1
  let cands := (sortCandidates (heuristicCandidates fs collected.2)).map (·.2)
  addUnique fs.res (addUnique fs.res (addUnique fs.res (addUnique fs.res [] pinned) entry) central) cands

/-- `pick_important_files`. -/
def pickImportantFiles (fs : FS) (maxFiles : Nat) : List RPath :=
  (pickFull fs).take maxFiles

/- ## Evidence budget reader (`read_files`) -/

def truncationNote : String := "\n\n... (content truncated to fit context budget)"

/-- The delimited per-file block. -/
def mkBlock (p : RPath) (snippet : String) : String :=
  "\n\n===== FILE: " ++ relString p ++ " =====\n" ++ snippet

/-- `p.read_text(...)`, `none` when the read raises and the file is skipped. -/
def readText? (fs : FS) (p : RPath) : Option String :=
  (lookupFile fs p).bind (·.content)

/-- The block-accumulation loop of `read_files`: skip unreadable files, clip
each text to 28000 characters, and the instant the next block would push the
running total past the cap emit the single truncation note and stop. -/
def readFilesGo (fs : FS) (maxTotal : Nat) : List RPath → Nat → List String
  | [], _ => []
  | p :: rest, total =>
    match readText? fs p with
    | none => readFilesGo fs maxTotal rest total
    | some text =>
      let block := mkBlock p (strTake text 28000)
      if maxTotal < total + block.length then [truncationNote]
      else block :: readFilesGo fs maxTotal rest (total + block.length)

/-- `read_files`. -/
def readFiles (fs : FS) (files : List RPath) (maxTotalChars : Nat) : String :=
  String.join (readFilesGo fs maxTotalChars files 0)

/- ## Language signal extractor (`reposensei/signals.py`) -/

def SIGNALS_IGNORE_DIRS : List String :=
  [".git", ".venv", "venv", "__pycache__", "node_modules", "dist", "build",
   ".next", ".cache", ".pytest_cache", ".mypy_cache"]

def EXT_LANG : List (String × String) :=
  [(".py", "Python"), (".js", "JavaScript"), (".ts", "TypeScript"),
   (".tsx", "TypeScript"), (".jsx", "JavaScript"), (".go", "Go"),
   (".java", "Java"), (".kt", "Kotlin"), (".rb", "Ruby"), (".php", "PHP"),
   (".rs", "Rust"), (".c", "C"), (".cc", "C++"), (".cpp", "C++"),
   (".h", "C/C++"), (".hpp", "C++"), (".cs", "C#")]

def ENTRYPOINT_FILES_NEAR_ROOT : List String :=
  ["manage.py", "pyproject.toml", "requirements.txt", "setup.py", "Pipfile",
   "poetry.lock", "environment.yml", "Dockerfile", "docker-compose.yml",
   "compose.yml", "Makefile", "package.json", "pnpm-lock.yaml", "yarn.lock",
   "package-lock.json", "go.mod", "pom.xml", "build.gradle",
   "build.gradle.kts", "README.md", "README.rst", "README.txt"]

def ENTRYPOINT_FILES_ANYWHERE : List String :=
  ["app.py", "main.py", "server.py", "wsgi.py", "asgi.py", "manage.py",
   "index.js", "index.ts", "app.js", "app.ts", "server.js", "server.ts",
   "main.go", "Main.java", "main.java"]

def MANIFEST_NAMES : List String :=
  ["package.json", "pyproject.toml", "go.mod", "pom.xml", "build.gradle", "build.gradle.kts"]

/-- `_iter_files`: regular files with `set(p.parts) & _IGNORE_DIRS` empty
(again every component is tested, the file name included). -/
def signalsIterFiles (fs : FS) : List FSFile :=
  fs.files.filter (fun f => !(f.path.any (fun part => SIGNALS_IGNORE_DIRS.contains part)))

def signalsIterPaths (fs : FS) : List RPath := (signalsIterFiles fs).map (·.path)

/-- `_EXT_LANG.get(suffix)`. -/
def extLang (suffix : String) : Option String :=
  (EXT_LANG.find? (fun e => e.1 == suffix)).map (·.2)

/-- The language `Counter` (insertion-ordered by first increment). -/
def langCounts (fs : FS) : Cnt String :=
  (signalsIterPaths fs).foldl
    (fun c p =>
      match extLang (lowerStr (pathSuffix (lastName p))) with
      | some lang => cntAdd c lang 1
      | none => c)
    []

/-- Order-preserving deduplication with a `seen` set. -/
def dedupKeep [DecidableEq α] (l : List α) : List α :=
  l.foldl (fun acc e => if acc.contains e then acc else acc ++ [e]) []

/-- Near-root entrypoints (`rel.count("/") <= 1`), deduplicated in order. -/
def epRootP (fs : FS) : List RPath :=
  dedupKeep ((signalsIterPaths fs).filter
    (fun p => decide (p.length ≤ 2) && ENTRYPOINT_FILES_NEAR_ROOT.contains (lastName p)))

/-- Anywhere entrypoints, deduplicated in order. -/
def epAnyP (fs : FS) : List RPath :=
  dedupKeep ((signalsIterPaths fs).filter
    (fun p => ENTRYPOINT_FILES_ANYWHERE.contains (lastName p)))

/-- `Path(x).parent.as_posix()` of a relative posix path. -/
def parentPosix (p : RPath) : String :=
  if p.length ≤ 1 then "." else relString p.dropLast

/-- The manifest files `_iter_files` finds (full list; the signals record
truncates its copy to 30, the monorepo hint uses them all). -/
def manifestPathsP (fs : FS) : List RPath :=
  (signalsIterPaths fs).filter (fun p => MANIFEST_NAMES.contains (lastName p))

/-- `monorepo_hint = len({Path(x).parent.as_posix() for x in manifest_paths}) >= 2`. -/
def monorepoHint (fs : FS) : Bool :=
  decide (2 ≤ ((manifestPathsP fs).map parentPosix).dedup.length)

/-- `_ROUTE_RE.finditer`: `(["'])(/[^"']+)\1`, non-overlapping matches; on a
failed attempt at an opening quote the scan resumes one character later. -/
def routeScanGo : Nat → List Char → List String
  | 0, _ => []
  | _ + 1, [] => []
  | fuel + 1, c :: rest =>
    if c == '"' || c == '\'' then
      match rest with
      | '/' :: r2 =>
        let span := r2.takeWhile (fun ch => !(ch == '"' || ch == '\''))
        if span.isEmpty then routeScanGo fuel rest
        else
          match r2.drop span.length with
          | c2 :: r3 =>
            if c2 == c then String.mk ('/' :: span) :: routeScanGo fuel r3
            else routeScanGo fuel rest
          | [] => routeScanGo fuel rest
      | _ => routeScanGo fuel rest
    else routeScanGo fuel rest

def routeStrings (text : String) : List String :=
  routeScanGo text.data.length text.data

/-- The bounded candidate list scanned for routes: entrypoint-ish files with
a known extension, then the fixed fallback names (appended unconditionally),
first 6. -/
def routeCandidates (fs : FS) : List RPath :=
  let eligible := ((epRootP fs ++ epAnyP fs).filter
    (fun p => strEnds (relString p) ".py" || strEnds (relString p) ".js" ||
      strEnds (relString p) ".ts")).filter (fun p => fileAt fs p)
  let fallback := ([["app.py"], ["main.py"], ["server.py"], ["index.js"],
    ["src", "index.js"]] : List RPath).filter (fun p => fileAt fs p)
  (eligible ++ fallback).take 6

/-- The collected route sample: per candidate, every `_ROUTE_RE` match that
starts with `/` (always true) and is at most 60 characters; unreadable
candidates are skipped; deduplicated, first 20. -/
def routesSample (fs : FS) : List String :=
  let collected := (routeCandidates fs).foldl
    (fun acc fp =>
      match readText? fs fp with
      | none => acc
      | some txt => acc ++ (routeStrings txt).filter (fun r => decide (r.length ≤ 60)))
    []
  (dedupKeep collected).take 20

/-- The signals record `build_signals` returns. -/
structure SignalsOut where
  languages : List String
  languageRank : List String
  languageCounts : Cnt String
  primaryLanguage : Option String
  entrypointsNearRoot : List String
  entrypointsAnywhere : List String
  entrypoints : List String
  monorepoHint : Bool
  manifestPaths : List String
  routesSample : List String
  frameworkHints : List String
  capabilityEvidence : List (String × String)

/-- `build_signals`. -/
def buildSignals (fs : FS) : SignalsOut :=
  let lc := langCounts fs
  let rank := (cntMostCommonAll lc).map (·.1)
  { languages := rank
    languageRank := rank
    languageCounts := lc
    primaryLanguage := rank.head?
    entrypointsNearRoot := (epRootP fs).map relString
    entrypointsAnywhere := (epAnyP fs).map relString
    entrypoints := (epRootP fs).map relString
    monorepoHint := monorepoHint fs
    manifestPaths := ((manifestPathsP fs).map relString).take 30
    routesSample := routesSample fs
    frameworkHints := []
    capabilityEvidence := [] }

/- ## The whole pipeline, for the determinism property -/

/-- One full analysis run with the default caps: the signals record, the tree
listing, the ordered selection, and the evidence bundle. -/
def runPipeline (fs : FS) : SignalsOut × String × List RPath × String :=
  let sel := pickImportantFiles fs 40
  (buildSignals fs, buildTree fs 600, sel, readFiles fs sel 180000)

/-- Two successive runs against the same unmodified snapshot. -/
def runPipelineTwice (fs : FS) : (SignalsOut × String × List RPath × String) × (SignalsOut × String × List RPath × String) :=
  (runPipeline fs, runPipeline fs)

/- ## Spec-side definitions and concrete snapshots -/

/-- A complete (never split) per-file block of the evidence bundle. -/
def IsFullBlock (fs : FS) (c : String) : Prop :=
  ∃ p text, readText? fs p = some text ∧
    c = mkBlock p (strTake text 28000) ∧ (strTake text 28000).length ≤ 28000

/-- The identity resolver: a snapshot without symlinks. -/
def idResolve : RPath → RPath := fun p => p

/-- Two root-level files whose traversal yields `pyproject.toml` before
`README.md`. -/
def c3fs : FS :=
  ⟨[⟨["pyproject.toml"], some "[tool]", 6⟩, ⟨["README.md"], some "hello", 5⟩], idResolve⟩

/-- Scenario B of the spec: `caller.py` contains
`from app.routes import handler` and exactly one file with stem `routes`
exists, elsewhere in the tree. -/
def c5fs : FS :=
  ⟨[⟨["caller.py"], some "from app.routes import handler", 40⟩,
    ⟨["app", "routes.py"], some "x = 1", 10⟩], idResolve⟩

/-- The same snapshot with no file of stem `routes` anywhere. -/
def c5noFs : FS :=
  ⟨[⟨["caller.py"], some "from app.routes import handler", 40⟩], idResolve⟩

/-- A snapshot with a single root-level manifest. -/
def c7fs : FS := ⟨[⟨["package.json"], some "\x7b\x7d", 2⟩], idResolve⟩

/-- A snapshot holding two regular files literally named `vendor` and
`build`. -/
def c10fs : FS := ⟨[⟨["vendor"], some "v", 1⟩, ⟨["build"], some "b", 1⟩], idResolve⟩

/-- The tree listing as the specification words it: the lexicographically
sorted relative paths capped at `maxEntries` lines, with the truncation
marker appended exactly when at least `maxEntries` files exist. -/
def specTreeListing (fs : FS) (maxEntries : Nat) : List String :=
  (sortedRelStrings fs).take maxEntries ++
    (if maxEntries ≤ (iterPaths fs).length then [truncatedMarker] else [])

/-- A lone `foo.py` whose only line is `import foo`. -/
def c4fs : FS := ⟨[⟨["foo.py"], some "import foo", 10⟩], idResolve⟩

/-- A lone oversized entry file. -/
def c6small : FS := ⟨[⟨["main.py"], none, 400001⟩], idResolve⟩

/-- 41 entry files; the oversized one is traversed last. -/
def c6big : FS :=
  ⟨(List.range 41).map
    (fun i => ⟨["d" ++ toString i, "main.py"], none, if i = 40 then 400000 else 10⟩), idResolve⟩

/- ## General helper lemmas -/

theorem foldl_append_length (L : List String) :
    ∀ s : String, (L.foldl (fun r t => r ++ t) s).length = s.length + (L.map String.length).sum := by
  induction L with
  | nil => intro s; simp
  | cons h t ih =>
    intro s
    simp only [List.foldl_cons, List.map_cons, List.sum_cons, ih, String.length_append]
    omega

theorem join_length (L : List String) : (String.join L).length = (L.map String.length).sum := by
  show (L.foldl (fun r t => r ++ t) "").length = _
  rw [foldl_append_length]
  simp

theorem strTake_length_le (s : String) (n : Nat) : (strTake s n).length ≤ n := by
  show (s.data.take n).length ≤ n
  simp

/- ## C1: the evidence bundle's budget invariants -/



theorem readFilesGo_length_bound (fs : FS) (cap : Nat) :
    ∀ (files : List RPath) (total : Nat), total ≤ cap →
      total + (String.join (readFilesGo fs cap files total)).length ≤
        cap + truncationNote.length := by
  intro files
  induction files with
  | nil =>
    intro total h
    have hz : (String.join (readFilesGo fs cap [] total)).length = 0 := by
      simp [readFilesGo, join_length]
    omega
  | cons p rest ih =>
    intro total h
    simp only [readFilesGo]
    cases hr : readText? fs p with
    | none => exact ih total h
    | some text =>
      simp only
      by_cases hov : cap < total + (mkBlock p (strTake text 28000)).length
      · simp only [if_pos hov, String.join, List.foldl_cons, List.foldl_nil]
        simp
        omega
      · simp only [if_neg hov]
        push_neg at hov
        have := ih (total + (mkBlock p (strTake text 28000)).length) hov
        have hjoin : (String.join (mkBlock p (strTake text 28000) ::
            readFilesGo fs cap rest (total + (mkBlock p (strTake text 28000)).length))).length =
            (mkBlock p (strTake text 28000)).length +
              (String.join (readFilesGo fs cap rest
                (total + (mkBlock p (strTake text 28000)).length))).length := by
          simp [join_length]
        omega

theorem readFilesGo_blocks (fs : FS) (cap : Nat) :
    ∀ (files : List RPath) (total : Nat), ∃ bs,
      (∀ c ∈ bs, IsFullBlock fs c) ∧
      (readFilesGo fs cap files total = bs ∨
        readFilesGo fs cap files total = bs ++ [truncationNote]) := by
  intro files
  induction files with
  | nil => intro total; exact ⟨[], by simp, Or.inl (by simp [readFilesGo])⟩
  | cons p rest ih =>
    intro total
    simp only [readFilesGo]
    cases hr : readText? fs p with
    | none => exact ih total
    | some text =>
      simp only
      by_cases hov : cap < total + (mkBlock p (strTake text 28000)).length
      · exact ⟨[], by simp, Or.inr (by simp [if_pos hov])⟩
      · obtain ⟨bs, hbs, hcase⟩ := ih (total + (mkBlock p (strTake text 28000)).length)
        refine ⟨mkBlock p (strTake text 28000) :: bs, ?_, ?_⟩
        · intro c hc
          rcases List.mem_cons.1 hc with hc | hc
          · exact ⟨p, text, hr, hc, strTake_length_le text 28000⟩
          · exact hbs c hc
        · rcases hcase with hcase | hcase
          · exact Or.inl (by simp [if_neg hov, hcase])
          · exact Or.inr (by simp [if_neg hov, hcase])

/-- C1: the evidence string returned by `read_files` has length at most the
total character cap (default 180000) plus the length of the truncation
marker; it is a sequence of complete per-file blocks whose content portion is
clipped to at most 28000 characters, and when truncation happens a single
marker terminates the output with no further content after it — no block is
ever split. -/
theorem c1_read_files_budget (fs : FS) (files : List RPath) :
    (readFiles fs files 180000).length ≤ 180000 + truncationNote.length ∧
    ∃ bs, (∀ c ∈ bs, IsFullBlock fs c) ∧
      (readFilesGo fs 180000 files 0 = bs ∨
        readFilesGo fs 180000 files 0 = bs ++ [truncationNote]) := by
  constructor
  · have := readFilesGo_length_bound fs 180000 files 0 (by omega)
    simpa [readFiles] using this
  · exact readFilesGo_blocks fs 180000 files 0

/- ## C2: the selection is deduplicated by resolved path -/

theorem addUniqueGo_nodup (res : RPath → RPath) :
    ∀ (items out seen : List RPath),
      (out.map res).Nodup → (∀ x, x ∈ seen ↔ x ∈ out.map res) →
      ((addUniqueGo res out seen items).map res).Nodup := by
  intro items
  induction items with
  | nil => intro out seen h _; exact h
  | cons it rest ih =>
    intro out seen h hiff
    by_cases hmem : res it ∈ seen
    · have hstep : addUniqueGo res out seen (it :: rest) = addUniqueGo res out seen rest := by
        simp [addUniqueGo, hmem]
      rw [hstep]
      exact ih out seen h hiff
    · have hcon : seen.contains (res it) = false := by
        rw [← Bool.not_eq_true]
        exact fun hc => hmem (List.elem_iff.1 hc)
      have hstep : addUniqueGo res out seen (it :: rest) =
          addUniqueGo res (out ++ [it]) (res it :: seen) rest := by
        simp only [addUniqueGo]
        rw [if_neg (fun hc => hmem (List.elem_iff.1 hc))]
      rw [hstep]
      refine ih (out ++ [it]) (res it :: seen) ?_ ?_
      · have hnot : res it ∉ out.map res := fun hx => hmem ((hiff (res it)).2 hx)
        simp only [List.map_append, List.map_cons, List.map_nil]
        refine List.Nodup.append h (List.nodup_singleton _) ?_
        intro a ha hb
        rw [List.mem_singleton] at hb
        exact hnot (hb ▸ ha)
      · intro x
        simp only [List.mem_cons, hiff x, List.map_append, List.mem_append,
          List.map_cons, List.map_nil, List.mem_singleton]
        tauto

theorem addUnique_nodup (res : RPath → RPath) (out items : List RPath)
    (h : (out.map res).Nodup) : ((addUnique res out items).map res).Nodup :=
  addUniqueGo_nodup res items out (out.map res) h (fun _ => Iff.rfl)

/-- C2: no two entries of the list returned by `pick_important_files` have the
same resolved path, even when a file qualifies under several tiers: the image
of the selection under the resolver is duplicate-free. -/
theorem c2_selection_dedup (fs : FS) (maxFiles : Nat) :
    ((pickImportantFiles fs maxFiles).map fs.res).Nodup := by
  have h4 : ((pickFull fs).map fs.res).Nodup := by
    simp only [pickFull]
    exact addUnique_nodup _ _ _ (addUnique_nodup _ _ _ (addUnique_nodup _ _ _
      (addUnique_nodup _ _ _ (by simp))))
  have : ((pickFull fs).take maxFiles).map fs.res = ((pickFull fs).map fs.res).take maxFiles :=
    List.map_take ..
  rw [pickImportantFiles, this]
  exact h4.sublist (List.take_sublist ..)

end RepoSensei

namespace RepoSensei

/- ## Concrete snapshots used to evaluate the model -/





/-- C3: contrary to the claim (and to the source's own comment
`# ensure README first if present`), a root README is not forced to the
front of the pinned tier when the near-root scan has already collected it
after another priority file: here the selection starts with
`pyproject.toml`, with `README.md` merely present later. -/
theorem c3_readme_not_first :
    fileAt c3fs ["README.md"] = true ∧
    ["README.md"] ∈ pinnedTier c3fs ∧
    (pinnedTier c3fs).head? = some ["pyproject.toml"] ∧
    (pickImportantFiles c3fs 40).head? = some ["pyproject.toml"] ∧
    ["README.md"] ∈ pickImportantFiles c3fs 40 := by decide





/-- C5: with exactly one `routes`-stemmed file present, that file's inbound
count is exactly 1 and the importer's outbound count is exactly 1; with no
such file, neither counter moves. -/
theorem c5_scenario_b :
    basenameIdx c5fs "routes" = [["app", "routes.py"]] ∧
    cntGet (collectImportCentrality c5fs).1 ["app", "routes.py"] = 1 ∧
    cntGet (collectImportCentrality c5fs).2 ["caller.py"] = 1 ∧
    basenameIdx c5noFs "routes" = [] ∧
    cntGet (collectImportCentrality c5noFs).1 ["app", "routes.py"] = 0 ∧
    cntGet (collectImportCentrality c5noFs).2 ["caller.py"] = 0 := by decide

/- ## C7: the monorepo hint -/

/-- C7: `monorepo_hint` is true exactly when the manifests found lie under
two or more distinct parent directories, and in particular a snapshot whose
only manifest is a single (root-level or not) one gets `false`. -/
theorem c7_monorepo_iff (fs : FS) :
    (monorepoHint fs = true ↔
      2 ≤ (((manifestPathsP fs).map parentPosix).toFinset).card) ∧
    (∀ p : RPath, manifestPathsP fs = [p] → monorepoHint fs = false) := by
  constructor
  · rw [monorepoHint, decide_eq_true_eq, List.card_toFinset]
  · intro p hp
    simp [monorepoHint, hp]



theorem c7_monorepo_witness : monorepoHint c7fs = false :=
  (c7_monorepo_iff c7fs).2 ["package.json"] (by decide)

/- ## C8: determinism of the pipeline -/

/-- C8: two runs of the full pipeline (`build_signals`, `build_tree`,
`pick_important_files`, `read_files`) against the same unmodified snapshot
return identical selection lists and byte-for-byte identical evidence
bundles (and identical signals records and tree listings): the embedded
pipeline is a pure function of the snapshot. -/
theorem c8_pipeline_deterministic (fs : FS) :
    (runPipelineTwice fs).1 = (runPipelineTwice fs).2 := rfl

/- ## C10: files named like ignored directories -/

theorem getLastD_mem {α : Type _} : ∀ (l : List α) (d : α), l ≠ [] → l.getLastD d ∈ l := by
  intro l
  induction l with
  | nil => intro d h; exact absurd rfl h
  | cons a t ih =>
    intro d _
    cases t with
    | nil => simp [List.getLastD]
    | cons b t2 =>
      have hmem := ih a (by simp)
      rw [List.getLastD]
      exact List.mem_cons_of_mem a hmem



/-- C10 counterexample: `vendor` is in the ignore set of the tree scanner,
yet a regular file named `vendor` is still yielded by the signals scanner
(the one behind language counting and entrypoint detection), whose smaller
ignore set lacks `vendor` — so such a file is not excluded from every
stage. -/
theorem c10_vendor_not_excluded_everywhere :
    "vendor" ∈ IGNORE_DIRS ∧
    ["vendor"] ∉ iterPaths c10fs ∧
    ["vendor"] ∈ signalsIterPaths c10fs ∧
    "vendor" ∉ SIGNALS_IGNORE_DIRS := by decide

/-- C10 (amended): both scanners do test every path component, the final
filename included, each against its own ignore set: a file whose name is in
`IGNORE_DIRS` is excluded from the `utils` stages (tree listing, import
graph, selection), and one whose name is in `_IGNORE_DIRS` of `signals.py`
is excluded from language counting and entrypoint detection. -/
theorem c10_amended (fs : FS) (p : RPath) :
    (lastName p ∈ IGNORE_DIRS → p ∉ iterPaths fs) ∧
    (lastName p ∈ SIGNALS_IGNORE_DIRS → p ∉ signalsIterPaths fs) := by
  constructor
  · intro hig hmem
    rw [iterPaths, List.mem_map] at hmem
    obtain ⟨f, hf, hfp⟩ := hmem
    rw [iterRepoFiles, List.mem_filter] at hf
    have hne : p ≠ [] := by
      intro h0
      rw [h0] at hig
      exact absurd hig (by decide)
    have hany : f.path.any (fun part => IGNORE_DIRS.contains part) = true := by
      rw [hfp]
      exact List.any_eq_true.2 ⟨lastName p, getLastD_mem p "" hne, List.elem_iff.2 hig⟩
    rw [hany] at hf
    exact absurd hf.2 (by decide)
  · intro hig hmem
    rw [signalsIterPaths, List.mem_map] at hmem
    obtain ⟨f, hf, hfp⟩ := hmem
    rw [signalsIterFiles, List.mem_filter] at hf
    have hne : p ≠ [] := by
      intro h0
      rw [h0] at hig
      exact absurd hig (by decide)
    have hany : f.path.any (fun part => SIGNALS_IGNORE_DIRS.contains part) = true := by
      rw [hfp]
      exact List.any_eq_true.2 ⟨lastName p, getLastD_mem p "" hne, List.elem_iff.2 hig⟩
    rw [hany] at hf
    exact absurd hf.2 (by decide)

theorem c10_amended_witness :
    ["build"] ∉ iterPaths c10fs ∧ ["build"] ∉ signalsIterPaths c10fs :=
  ⟨(c10_amended c10fs ["build"]).1 (by decide),
   (c10_amended c10fs ["build"]).2 (by decide)⟩

end RepoSensei

namespace RepoSensei

/- ## C9: the tree listing -/

theorem lexLe_total : ∀ a b : List Char, lexLe a b = true ∨ lexLe b a = true := by
  intro a
  induction a with
  | nil => intro b; exact Or.inl rfl
  | cons x xs ih =>
    intro b
    cases b with
    | nil => exact Or.inr rfl
    | cons y ys =>
      by_cases hxy : x = y
      · subst hxy
        rcases ih ys with h | h
        · exact Or.inl (by simp [lexLe, h])
        · exact Or.inr (by simp [lexLe, h])
      · rcases lt_or_gt_of_ne hxy with h | h
        · exact Or.inl (by simp [lexLe, hxy, h])
        · exact Or.inr (by simp [lexLe, Ne.symm hxy, h])

theorem lexLe_trans :
    ∀ a b c : List Char, lexLe a b = true → lexLe b c = true → lexLe a c = true := by
  intro a
  induction a with
  | nil => intro b c _ _; rfl
  | cons x xs ih =>
    intro b c h1 h2
    cases b with
    | nil => simp [lexLe] at h1
    | cons y ys =>
      cases c with
      | nil => simp [lexLe] at h2
      | cons z zs =>
        by_cases hxy : x = y <;> by_cases hyz : y = z
        · subst hxy; subst hyz
          simp only [lexLe, beq_self_eq_true, if_true] at h1 h2 ⊢
          exact ih ys zs h1 h2
        · subst hxy
          simp only [lexLe, hyz, beq_self_eq_true, if_true] at h1 h2 ⊢
          have hlt : x < z := by
            simp only [beq_iff_eq, hyz, if_false, decide_eq_true_eq] at h2
            exact h2
          simp [beq_iff_eq, ne_of_lt hlt, hlt]
        · subst hyz
          simp only [lexLe, beq_iff_eq, hxy, if_false, decide_eq_true_eq] at h1 ⊢
          simp [hxy, h1]
        · have hl1 : x < y := by
            simp only [lexLe, beq_iff_eq, hxy, if_false, decide_eq_true_eq] at h1
            exact h1
          have hl2 : y < z := by
            simp only [lexLe, beq_iff_eq, hyz, if_false, decide_eq_true_eq] at h2
            exact h2
          have hlt : x < z := lt_trans hl1 hl2
          simp [lexLe, beq_iff_eq, ne_of_lt hlt, hlt]

instance : IsTotal String (boolRel strLe) :=
  ⟨fun a b => lexLe_total a.data b.data⟩

instance : IsTrans String (boolRel strLe) :=
  ⟨fun a b c h1 h2 => lexLe_trans a.data b.data c.data h1 h2⟩

theorem buildTreeGo_spec (maxE : Nat) :
    ∀ (l : List String) (count : Nat), count < maxE →
      buildTreeGo maxE l count =
        l.take (maxE - count) ++
          (if maxE - count ≤ l.length then [truncatedMarker] else []) := by
  intro l
  induction l with
  | nil =>
    intro count h
    rw [buildTreeGo]
    rw [if_neg (by simp; omega)]
    simp
  | cons r rest ih =>
    intro count h
    by_cases hc : maxE ≤ count + 1
    · have h1 : maxE - count = 1 := by omega
      rw [buildTreeGo, if_pos hc, h1]
      rw [if_pos (by simp)]
      simp
    · have h2 : maxE - count = (maxE - (count + 1)) + 1 := by omega
      rw [buildTreeGo, if_neg hc, ih (count + 1) (by omega), h2]
      simp only [List.take_succ_cons, List.cons_append, List.length_cons]
      have h4 : (maxE - (count + 1) + 1 ≤ rest.length + 1) ↔ (maxE - (count + 1) ≤ rest.length) := by
        omega
      rw [if_congr h4 rfl rfl]



/-- C9: `build_tree` (default cap 600) renders exactly the spec's listing —
the relative paths of the non-ignored regular files in lexicographic order,
at most 600 path lines, the marker appended iff at least 600 files exist —
joined by newlines; the sorted list is indeed ordered by the code-point
comparison and is a permutation of the scanned relative paths. -/
theorem c9_build_tree (fs : FS) :
    buildTree fs 600 = String.intercalate "\n" (specTreeListing fs 600) ∧
    ((sortedRelStrings fs).take 600).length ≤ 600 ∧
    List.Sorted (boolRel strLe) (sortedRelStrings fs) ∧
    (sortedRelStrings fs).Perm ((iterPaths fs).map relString) := by
  refine ⟨?_, ?_, ?_, ?_⟩
  · have hlen : (sortedRelStrings fs).length = ((iterPaths fs).map relString).length :=
      (List.perm_insertionSort _ _).length_eq
    rw [buildTree, buildTreeGo_spec 600 _ 0 (by omega), specTreeListing]
    rw [Nat.sub_zero, hlen, List.length_map]
  · simp
  · exact List.sorted_insertionSort _ _
  · exact List.perm_insertionSort _ _

end RepoSensei

namespace RepoSensei

/- ## C4: what the centrality counters count -/

theorem cntGet_cons [DecidableEq α] (e : α × Nat) (c : Cnt α) (k : α) :
    cntGet (e :: c) k = if e.1 = k then e.2 else cntGet c k := by
  by_cases h : e.1 = k <;> simp [cntGet, List.find?, h]

theorem cntGet_cntAdd [DecidableEq α] :
    ∀ (c : Cnt α) (k k' : α) (n : Nat),
      cntGet (cntAdd c k n) k' = cntGet c k' + if k' = k then n else 0 := by
  intro c
  induction c with
  | nil =>
    intro k k' n
    rw [cntAdd, cntGet_cons]
    by_cases h : k' = k
    · subst h; simp [cntGet]
    · have h2 : ¬ k = k' := fun hh => h hh.symm
      simp [cntGet, h2, h]
  | cons e rest ih =>
    intro k k' n
    by_cases he : e.1 = k
    · rw [cntAdd, if_pos he]
      by_cases hk : k' = k
      · subst hk
        simp [cntGet_cons, he]
      · have hek : ¬ e.1 = k' := fun hh => hk ((hh.symm.trans he).symm ▸ rfl)
        rw [cntGet_cons, cntGet_cons, if_neg (by simpa using hek), if_neg (by simpa using hek),
          if_neg hk]
        omega
    · rw [cntAdd, if_neg he]
      by_cases hek : e.1 = k'
      · have hkk : ¬ k' = k := fun hh => he (hek.trans hh)
        rw [cntGet_cons, cntGet_cons, if_pos hek, if_pos hek, if_neg hkk]
        omega
      · rw [cntGet_cons, cntGet_cons, if_neg hek, if_neg hek, ih]

theorem foldl_preserve {α β : Type _} {P : α → Prop} (f : α → β → α)
    (hf : ∀ a b, P a → P (f a b)) : ∀ (l : List β) (a : α), P a → P (l.foldl f a) := by
  intro l
  induction l with
  | nil => intro a h; exact h
  | cons x t ih => intro a h; exact ih _ (hf a x h)

theorem addRef_nodup (refs : List RPath) (tgt : RPath) (h : refs.Nodup) :
    (addRef refs tgt).Nodup := by
  rw [addRef]
  by_cases hmem : tgt ∈ refs
  · rw [if_pos (List.elem_iff.2 hmem)]
    exact h
  · rw [if_neg (fun hc => hmem (List.elem_iff.1 hc))]
    refine List.Nodup.append h (List.nodup_singleton _) ?_
    intro a ha hb
    rw [List.mem_singleton] at hb
    exact hmem (hb ▸ ha)

theorem addBaseRefs_nodup (fs : FS) (refs : List RPath) (base : String) (h : refs.Nodup) :
    (addBaseRefs fs refs base).Nodup :=
  foldl_preserve addRef (fun a b ha => addRef_nodup a b ha) _ refs h

theorem refsOf_nodup (fs : FS) (src : RPath) (text : String) : (refsOf fs src text).Nodup := by
  rw [refsOf]
  split
  · exact foldl_preserve _ (fun a b ha => addBaseRefs_nodup fs a _ ha) _ _ List.nodup_nil
  · split
    · exact foldl_preserve _ (fun a b ha => addBaseRefs_nodup fs a _ ha) _ _
        (foldl_preserve _ (fun a b ha => addBaseRefs_nodup fs a _ ha) _ _ List.nodup_nil)
    · split
      · exact foldl_preserve _ (fun a b ha => addBaseRefs_nodup fs a _ ha) _ _ List.nodup_nil
      · exact List.nodup_nil

theorem effRefs_nodup (fs : FS) (src : RPath) : (effRefs fs src).Nodup := by
  rw [effRefs]
  split
  · exact List.nodup_nil
  · exact refsOf_nodup fs src _

theorem cntGet_foldl_inb (src : RPath) :
    ∀ (refs : List RPath) (inb : Cnt RPath) (t : RPath), refs.Nodup →
      cntGet (refs.foldl (fun i tgt => if tgt ≠ src then cntAdd i tgt 1 else i) inb) t =
        cntGet inb t + (if t ∈ refs ∧ t ≠ src then 1 else 0) := by
  intro refs
  induction refs with
  | nil => intro inb t _; simp
  | cons r rest ih =>
    intro inb t hnd
    rw [List.foldl_cons, ih _ t (List.Nodup.of_cons hnd)]
    by_cases hrs : r = src
    · rw [if_neg (by simp [hrs])]
      have hcond : (t ∈ rest ∧ t ≠ src) ↔ (t ∈ r :: rest ∧ t ≠ src) := by
        constructor
        · rintro ⟨h1, h2⟩; exact ⟨List.mem_cons_of_mem _ h1, h2⟩
        · rintro ⟨h1, h2⟩
          rcases List.mem_cons.1 h1 with h1 | h1
          · exact absurd (h1.trans hrs) h2
          · exact ⟨h1, h2⟩
      rw [if_congr hcond rfl rfl]
    · rw [if_pos hrs, cntGet_cntAdd]
      by_cases htr : t = r
      · subst htr
        have htrest : t ∉ rest := (List.nodup_cons.1 hnd).1
        rw [if_pos rfl, if_neg (fun hc => htrest hc.1), if_pos ⟨List.mem_cons_self .., hrs⟩]
      · rw [if_neg htr]
        have hcond : (t ∈ rest ∧ t ≠ src) ↔ (t ∈ r :: rest ∧ t ≠ src) := by
          constructor
          · rintro ⟨h1, h2⟩; exact ⟨List.mem_cons_of_mem _ h1, h2⟩
          · rintro ⟨h1, h2⟩
            rcases List.mem_cons.1 h1 with h1 | h1
            · exact absurd h1 htr
            · exact ⟨h1, h2⟩
        rw [if_congr hcond rfl rfl]
        omega

theorem collectGo_outb (fs : FS) :
    ∀ (srcs : List RPath) (inb outb : Cnt RPath) (q : RPath),
      cntGet (collectGo fs srcs (inb, outb)).2 q =
        cntGet outb q +
          ((srcs.filter (fun s => decide (s = q))).map (fun s => (effRefs fs s).length)).sum := by
  intro srcs
  induction srcs with
  | nil => intro inb outb q; simp [collectGo]
  | cons src rest ih =>
    intro inb outb q
    by_cases hre : (effRefs fs src).isEmpty
    · have hstep : collectGo fs (src :: rest) (inb, outb) = collectGo fs rest (inb, outb) := by
        simp only [collectGo]
        rw [if_pos hre]
      rw [hstep, ih]
      by_cases hq : src = q
      · subst hq
        have hlen : (effRefs fs src).length = 0 := by
          rw [List.isEmpty_iff] at hre
          simp [hre]
        simp [List.filter_cons, hlen]
      · simp [List.filter_cons, hq]
    · have hstep : collectGo fs (src :: rest) (inb, outb) =
          collectGo fs rest
            ((effRefs fs src).foldl (fun i tgt => if tgt ≠ src then cntAdd i tgt 1 else i) inb,
             cntAdd outb src (effRefs fs src).length) := by
        simp only [collectGo]
        rw [if_neg (by simp [hre])]
      rw [hstep, ih, cntGet_cntAdd]
      by_cases hq : src = q
      · subst hq
        simp [List.filter_cons]
        omega
      · have hq' : ¬ q = src := fun hh => hq hh.symm
        simp [List.filter_cons, hq, hq']

theorem collectGo_inb (fs : FS) :
    ∀ (srcs : List RPath) (inb outb : Cnt RPath) (t : RPath),
      cntGet (collectGo fs srcs (inb, outb)).1 t =
        cntGet inb t +
          (srcs.filter (fun s => decide (t ∈ effRefs fs s) && decide (t ≠ s))).length := by
  intro srcs
  induction srcs with
  | nil => intro inb outb t; simp [collectGo]
  | cons src rest ih =>
    intro inb outb t
    by_cases hre : (effRefs fs src).isEmpty
    · have hstep : collectGo fs (src :: rest) (inb, outb) = collectGo fs rest (inb, outb) := by
        simp only [collectGo]
        rw [if_pos hre]
      rw [hstep, ih]
      have hnot : t ∉ effRefs fs src := by
        rw [List.isEmpty_iff] at hre
        simp [hre]
      simp [List.filter_cons, hnot]
    · have hstep : collectGo fs (src :: rest) (inb, outb) =
          collectGo fs rest
            ((effRefs fs src).foldl (fun i tgt => if tgt ≠ src then cntAdd i tgt 1 else i) inb,
             cntAdd outb src (effRefs fs src).length) := by
        simp only [collectGo]
        rw [if_neg (by simp [hre])]
      rw [hstep, ih, cntGet_foldl_inb src _ _ t (effRefs_nodup fs src), List.filter_cons]
      by_cases hcond : t ∈ effRefs fs src ∧ t ≠ src
      · have hfc : (decide (t ∈ effRefs fs src) && decide (t ≠ src)) = true := by
          simp [hcond.1, hcond.2]
        rw [if_pos hcond, hfc]
        simp only [if_true, List.length_cons]
        omega
      · have hfc : (decide (t ∈ effRefs fs src) && decide (t ≠ src)) = false := by
          rcases not_and_or.1 hcond with h | h <;> simp [h]
        rw [if_neg hcond, hfc]
        simp only [Bool.false_eq_true, if_false]
        omega

theorem iterPaths_nodup (fs : FS) (h : (fs.files.map (·.path)).Nodup) :
    (iterPaths fs).Nodup := by
  rw [iterPaths, iterRepoFiles]
  exact h.sublist ((List.filter_sublist _).map _)

theorem scanCandidates_nodup (fs : FS) (h : (fs.files.map (·.path)).Nodup) :
    (scanCandidates fs).Nodup := by
  rw [scanCandidates]
  have h1 : ((iterPaths fs).filter
      (fun p => codeSuffixes.contains (lowerStr (pathSuffix (lastName p))))).Nodup :=
    (iterPaths_nodup fs h).filter _
  have h2 := ((List.perm_insertionSort
    (boolRel (fun a b => decide (statSize fs b ≤ statSize fs a))) _).nodup_iff).2 h1
  exact h2.sublist (List.take_sublist ..)

theorem filter_eq_self_sum (q : RPath) (c : RPath → Nat) :
    ∀ srcs : List RPath, srcs.Nodup → q ∈ srcs →
      ((srcs.filter (fun s => decide (s = q))).map c).sum = c q := by
  intro srcs
  induction srcs with
  | nil => intro _ h; cases h
  | cons s rest ih =>
    intro hnd hq
    by_cases hs : s = q
    · subst hs
      have hrest : rest.filter (fun x => decide (x = s)) = [] := by
        rw [List.filter_eq_nil_iff]
        intro a ha hc
        exact (List.nodup_cons.1 hnd).1 ((of_decide_eq_true hc) ▸ ha)
      simp [List.filter_cons, hrest]
    · have hq' : q ∈ rest := by
        rcases List.mem_cons.1 hq with h | h
        · exact absurd h.symm hs
        · exact h
      simp only [List.filter_cons, decide_eq_false hs, Bool.false_eq_true, if_false]
      exact ih (List.Nodup.of_cons hnd) hq'



/-- C4 counterexample: `foo.py` importing `foo` resolves to itself.  The
recorded outbound count is 1, yet the number of distinct resolved targets
with the file itself excluded is 0: `len(refs)` is taken before the
self-test, which guards only the inbound update (the inbound count stays 0). -/
theorem c4_outbound_counts_self :
    cntGet (collectImportCentrality c4fs).2 ["foo.py"] = 1 ∧
    ((effRefs c4fs ["foo.py"]).filter (fun t => decide (t ≠ ["foo.py"]))).length = 0 ∧
    cntGet (collectImportCentrality c4fs).1 ["foo.py"] = 0 := by decide

/-- C4 (amended): for every scanned source file, the recorded outbound count
equals the number of distinct resolved targets **including** a possible
self-match (self is excluded from the inbound update only), and each
distinct resolved target's inbound counter receives exactly 1 per
referencing source file other than itself, regardless of how many
raw tokens resolve to that target. -/
theorem c4_centrality_counts (fs : FS) (hnd : (fs.files.map (·.path)).Nodup)
    (src : RPath) (hs : src ∈ scanCandidates fs) :
    (effRefs fs src).Nodup ∧
    cntGet (collectImportCentrality fs).2 src = (effRefs fs src).length ∧
    ∀ t : RPath, cntGet (collectImportCentrality fs).1 t =
      ((scanCandidates fs).filter
        (fun s => decide (t ∈ effRefs fs s) && decide (t ≠ s))).length := by
  refine ⟨effRefs_nodup fs src, ?_, ?_⟩
  · rw [collectImportCentrality, collectGo_outb]
    rw [filter_eq_self_sum src _ _ (scanCandidates_nodup fs hnd) hs]
    simp [cntGet]
  · intro t
    rw [collectImportCentrality, collectGo_inb]
    simp [cntGet]

theorem c4_centrality_counts_witness :
    cntGet (collectImportCentrality c4fs).2 ["foo.py"] = (effRefs c4fs ["foo.py"]).length :=
  (c4_centrality_counts c4fs (by decide) ["foo.py"] (by decide)).2.1

end RepoSensei

namespace RepoSensei

/- ## C6: oversized files -/

theorem addUniqueGo_cons_mem (res : RPath → RPath) (out seen : List RPath) (it : RPath)
    (rest : List RPath) (h : res it ∈ seen) :
    addUniqueGo res out seen (it :: rest) = addUniqueGo res out seen rest := by
  simp [addUniqueGo, h]

theorem addUniqueGo_cons_new (res : RPath → RPath) (out seen : List RPath) (it : RPath)
    (rest : List RPath) (h : res it ∉ seen) :
    addUniqueGo res out seen (it :: rest) =
      addUniqueGo res (out ++ [it]) (res it :: seen) rest := by
  simp only [addUniqueGo]
  rw [if_neg (fun hc => h (List.elem_iff.1 hc))]

theorem addUniqueGo_extends (res : RPath → RPath) :
    ∀ (items out seen : List RPath) (q : RPath), q ∈ out →
      q ∈ addUniqueGo res out seen items := by
  intro items
  induction items with
  | nil => intro out seen q h; exact h
  | cons it rest ih =>
    intro out seen q h
    by_cases hmem : res it ∈ seen
    · rw [addUniqueGo_cons_mem res out seen it rest hmem]
      exact ih out seen q h
    · rw [addUniqueGo_cons_new res out seen it rest hmem]
      exact ih _ _ q (List.mem_append_left _ h)

theorem addUniqueGo_covers (res : RPath → RPath) :
    ∀ (items out seen : List RPath) (p : RPath), p ∈ items →
      (∀ s ∈ seen, ∃ q ∈ out, res q = s) →
      ∃ q ∈ addUniqueGo res out seen items, res q = res p := by
  intro items
  induction items with
  | nil => intro out seen p h _; cases h
  | cons it rest ih =>
    intro out seen p hp hinv
    by_cases hmem : res it ∈ seen
    · rw [addUniqueGo_cons_mem res out seen it rest hmem]
      rcases List.mem_cons.1 hp with hp | hp
      · obtain ⟨q, hqo, hqr⟩ := hinv _ (hp ▸ hmem)
        exact ⟨q, addUniqueGo_extends res rest out seen q hqo, by rw [hqr, hp]⟩
      · exact ih out seen p hp hinv
    · rw [addUniqueGo_cons_new res out seen it rest hmem]
      rcases List.mem_cons.1 hp with hp | hp
      · subst hp
        exact ⟨p, addUniqueGo_extends res rest _ _ p
          (List.mem_append_right _ (List.mem_singleton_self _)), rfl⟩
      · refine ih _ _ p hp ?_
        intro s hs
        rcases List.mem_cons.1 hs with hs | hs
        · exact ⟨it, List.mem_append_right _ (List.mem_singleton_self _), hs.symm⟩
        · obtain ⟨q, hqo, hqr⟩ := hinv s hs
          exact ⟨q, List.mem_append_left _ hqo, hqr⟩

theorem addUnique_extends (res : RPath → RPath) (out items : List RPath) (q : RPath)
    (h : q ∈ out) : q ∈ addUnique res out items :=
  addUniqueGo_extends res items out (out.map res) q h

theorem addUnique_covers (res : RPath → RPath) (out items : List RPath) (p : RPath)
    (hp : p ∈ items) : ∃ q ∈ addUnique res out items, res q = res p := by
  refine addUniqueGo_covers res items out (out.map res) p hp ?_
  intro s hs
  rcases List.mem_map.1 hs with ⟨q, hq, hqs⟩
  exact ⟨q, hq, hqs⟩

theorem heuristicStep_some (fs : FS) (outb : Cnt RPath) (p : RPath) (pr : Int × RPath)
    (h : heuristicStep fs outb p = some pr) :
    pr.2 = p ∧ ∃ f, lookupFile fs p = some f ∧ f.size ≤ 350000 := by
  simp only [heuristicStep] at h
  cases hl : lookupFile fs p with
  | none => rw [hl] at h; simp at h
  | some f =>
    rw [hl] at h
    simp only at h
    by_cases hbig : 350000 < f.size
    · rw [if_pos hbig] at h; simp at h
    · rw [if_neg hbig, Option.ite_none_right_eq_some] at h
      have h2 := Option.some_inj.1 h.2
      exact ⟨h2 ▸ rfl, f, rfl, by omega⟩

/-- C6 (amended): a file above the 350000-byte ceiling is excluded outright
from the heuristic candidate list (never scored), yet whenever it qualifies
for the pinned or entrypoint tier the final selection still contains a file
with its resolved path — provided the merged tier list does not overrun the
`max_files` cap of 40, past which even a pinned or entrypoint file is
truncated away. -/
theorem c6_oversized (fs : FS) (p : RPath) (f : FSFile)
    (hl : lookupFile fs p = some f) (hbig : 350000 < f.size) :
    p ∉ (heuristicCandidates fs (collectImportCentrality fs).2).map (·.2) ∧
    ((p ∈ pinnedTier fs ∨ p ∈ entryTier fs) → (pickFull fs).length ≤ 40 →
      ∃ q ∈ pickImportantFiles fs 40, fs.res q = fs.res p) := by
  constructor
  · intro hmem
    rw [List.mem_map] at hmem
    obtain ⟨pr, hpr, hpr2⟩ := hmem
    rw [heuristicCandidates, List.mem_filterMap] at hpr
    obtain ⟨q, _, hstep⟩ := hpr
    obtain ⟨hsnd, f', hlf', hsize⟩ := heuristicStep_some fs _ q pr hstep
    rw [hsnd] at hpr2
    subst hpr2
    rw [hl] at hlf'
    cases Option.some_inj.1 hlf'
    omega
  · intro hq hlen
    rw [pickImportantFiles, List.take_of_length_le hlen]
    simp only [pickFull]
    rcases hq with hq | hq
    · obtain ⟨q, hq1, hq2⟩ := addUnique_covers fs.res [] (pinnedTier fs) p hq
      exact ⟨q, addUnique_extends _ _ _ q (addUnique_extends _ _ _ q
        (addUnique_extends _ _ _ q hq1)), hq2⟩
    · obtain ⟨q, hq1, hq2⟩ :=
        addUnique_covers fs.res (addUnique fs.res [] (pinnedTier fs)) (entryTier fs) p hq
      exact ⟨q, addUnique_extends _ _ _ q (addUnique_extends _ _ _ q hq1), hq2⟩



theorem c6_oversized_witness :
    ∃ q ∈ pickImportantFiles c6small 40, c6small.res q = c6small.res ["main.py"] :=
  (c6_oversized c6small ["main.py"] ⟨["main.py"], none, 400001⟩ (by decide) (by decide)).2
    (Or.inr (by decide)) (by decide)



/-- C6 counterexample: on a snapshot with 41 entrypoint files whose last is
oversized, the oversized file qualifies for the entrypoint tier but the
`[:max_files]` truncation (40) drops it: it does not appear in the final
selection, so "appears whenever it qualifies" is false as stated. -/
theorem c6_truncation_drops_oversized :
    350000 < statSize c6big ["d40", "main.py"] ∧
    ["d40", "main.py"] ∈ entryTier c6big ∧
    ["d40", "main.py"] ∉ pickImportantFiles c6big 40 := by decide

end RepoSensei
